import Mathlib

/-!
Shallow embedding of the poolalloc slab allocator (pool.c, pool.h).

Modelling conventions:

* `sw` is a parameter standing for `sizeof(unsigned long)` in bytes (4 on
  ILP32, 8 on LP64); `sizeof(unsigned)` is 4 on every modelled platform, so
  `unsigned` arithmetic is arithmetic modulo `2 ^ 32`.
* a machine word (`ss_t`) is a `Nat` that callers keep below `2 ^ SS_SIZE sw`;
  an `unsigned` is a `Nat` kept below `2 ^ 32`, with wrap-around written out
  explicitly where the C source can wrap.
* a pool chain (`pool` followed by its `successor` links) is a `List Node`,
  the head of the list being the head pool; a null `pool*` argument is the
  empty list, a null object pointer is address `0`.
* undefined behaviour (out-of-bounds array access, `__builtin_ctz(0)`,
  a shift by the width) and failed `assert`s are both modelled as `none`.
-/

/-- Fuel-driven count of trailing zero bits; `tzAux f x` is the number of
trailing zeros of `x` as long as it is below the fuel `f`. -/
def tzAux : Nat → Nat → Nat
  | 0, _ => 0
  | fuel + 1, x => if x % 2 = 1 then 0 else tzAux fuel (x / 2) + 1

/-- Model of `__builtin_ctz`: the argument is converted to 32-bit `unsigned`;
32 trailing-zero steps suffice for any nonzero 32-bit value.  A zero argument
is undefined in C; callers of this model guard against it. -/
def ctz32 (x : Nat) : Nat := tzAux 32 (x % 2 ^ 32)

/-- One line `x = (x >> k) | x` of the bit-smearing in `npot`. -/
def smearStep (k x : Nat) : Nat := (x >>> k) ||| x

/-- The five smearing lines of `npot` (shifts by 1, 2, 4, 8, 16). -/
def smear (x : Nat) : Nat :=
  smearStep 16 (smearStep 8 (smearStep 4 (smearStep 2 (smearStep 1 x))))

/-- `npot` from pool.c: `--x`, five smearing lines, `++x`, all in 32-bit
unsigned arithmetic (the decrement and increment can wrap). -/
def npot (x : Nat) : Nat := (smear ((x + (2 ^ 32 - 1)) % 2 ^ 32) + 1) % 2 ^ 32

/-- `SS_SIZE`: number of slots in one `ss_t`, that is `sizeof(ss_t) * 8`. -/
def SS_SIZE (sw : Nat) : Nat := sw * 8

/-- `SSG_COUNT`: number of `ss_t` in a group, that is `8 / sizeof(ss_t)`. -/
def SSG_COUNT (sw : Nat) : Nat := 8 / sw

/-- `SSG_SIZE`: total number of slots in a slot set group. -/
def SSG_SIZE (sw : Nat) : Nat := SSG_COUNT sw * SS_SIZE sw

/-- `SS_EMPTY = -1UL`: the all-ones word (every slot free). -/
def SS_EMPTY (sw : Nat) : Nat := 2 ^ SS_SIZE sw - 1

/-- `ss_find` (non-ARM branch): `__builtin_ctz(x)`.  The argument is an
`ss_t` converted to 32-bit `unsigned`; if that conversion yields 0 the
builtin is undefined, modelled as `none`. -/
def ss_find (x : Nat) : Option Nat :=
  if x % 2 ^ 32 = 0 then none else some (ctz32 x)

/-- `ss_test` (non-ARM branch): `(x & (1UL << idx)) == 0`. -/
def ss_test (x idx : Nat) : Bool := x &&& (1 <<< idx) == 0

/-- `ss_mark` (non-ARM branch): `x & ~(1UL << idx)`; the complement of the
mask on a `SS_SIZE sw`-bit word is `SS_EMPTY sw ^^^ mask`. -/
def ss_mark (sw x idx : Nat) : Nat := x &&& (SS_EMPTY sw ^^^ (1 <<< idx))

/-- `ss_unmark` (non-ARM branch): `x | (1UL << idx)`. -/
def ss_unmark (x idx : Nat) : Nat := x ||| (1 <<< idx)

/-- `ssg_is_full`: every constituent word equals `SS_FULL` (zero).  The C
loop reads `x.s[i]` for `i < SSG_COUNT`. -/
def ssg_is_full (sw : Nat) (g : List Nat) : Bool :=
  (List.range (SSG_COUNT sw)).all fun i => g.getD i 0 == 0

/-- Loop body of `ssg_find`: walk the word indices, keeping the running
offset `pos`, which grows by `SS_SIZE` for every full word skipped. -/
def ssg_findAux (sw : Nat) (g : List Nat) : List Nat → Nat → Option Nat
  | [], _ => some 0
  | i :: is, pos =>
    if g.getD i 0 == 0 then ssg_findAux sw g is (pos + SS_SIZE sw)
    else (ss_find (g.getD i 0)).map (pos + ·)

/-- `ssg_find`: first free slot index of a group; returns 0 if every word is
full (the C fall-through `return 0`). -/
def ssg_find (sw : Nat) (g : List Nat) : Option Nat :=
  ssg_findAux sw g (List.range (SSG_COUNT sw)) 0

/-- `_ssg_bucket` from pool.c: `idx / SSG_COUNT` (sic: the divisor in the
source is the word count, not the word width). -/
def _ssg_bucket (sw idx : Nat) : Nat := idx / SSG_COUNT sw

/-- `_ssg_subindex` from pool.c: `idx % SSG_COUNT` (sic, as above). -/
def _ssg_subindex (sw idx : Nat) : Nat := idx % SSG_COUNT sw

/-- `ssg_test`: reads `x.s[_ssg_bucket(idx)]`; an out-of-bounds bucket is
undefined behaviour, modelled as `none`. -/
def ssg_test (sw : Nat) (g : List Nat) (idx : Nat) : Option Bool :=
  if _ssg_bucket sw idx < g.length then
    some (ss_test (g.getD (_ssg_bucket sw idx) 0) (_ssg_subindex sw idx))
  else none

/-- `ssg_mark`: writes `x.s[_ssg_bucket(idx)]`; out of bounds is `none`. -/
def ssg_mark (sw : Nat) (g : List Nat) (idx : Nat) : Option (List Nat) :=
  if _ssg_bucket sw idx < g.length then
    some (g.set (_ssg_bucket sw idx)
      (ss_mark sw (g.getD (_ssg_bucket sw idx) 0) (_ssg_subindex sw idx)))
  else none

/-- `ssg_unmark`: writes `x.s[_ssg_bucket(idx)]`; out of bounds is `none`. -/
def ssg_unmark (sw : Nat) (g : List Nat) (idx : Nat) : Option (List Nat) :=
  if _ssg_bucket sw idx < g.length then
    some (g.set (_ssg_bucket sw idx)
      (ss_unmark (g.getD (_ssg_bucket sw idx) 0) (_ssg_subindex sw idx)))
  else none

/-- `ssg_empty`: `memset(&x, 0xFF, sizeof(x))`, every word all-ones. -/
def ssg_empty (sw : Nat) : List Nat := List.replicate (SSG_COUNT sw) (SS_EMPTY sw)

/-- One `struct _pool` node: the slot set group, `l2s` (log2 of the rounded
object size) and the address of its data buffer (`pool_source`). -/
structure Node where
  slots : List Nat
  l2s : Nat
  base : Nat
deriving DecidableEq

/-- `pool_create_extra` without the extra-data plumbing: `assert(objsize)`
is `none` on zero; a zero `npot` result feeds `__builtin_ctz(0)`, which is
undefined, also `none`.  `base` stands for the address `pool_source` returns
for the fresh allocation. -/
def pool_create (sw base objsize : Nat) : Option Node :=
  if objsize == 0 then none
  else if npot objsize == 0 then none
  else some ⟨ssg_empty sw, ctz32 (npot objsize), base⟩

/-- A freshly created pool as a chain: one node, successor null. -/
def pool_create_chain (sw base objsize : Nat) : Option (List Node) :=
  (pool_create sw base objsize).map fun nd => [nd]

/-- The else-branch of `pool_alloc` on one node: find the first free slot,
compute `pool_source(pl) + (pos << pl->l2s)`, mark the slot. -/
def alloc_here (sw : Nat) (nd : Node) : Option (Nat × Node) :=
  (ssg_find sw nd.slots).bind fun pos =>
    (ssg_mark sw nd.slots pos).map fun g =>
      (nd.base + (pos <<< nd.l2s), ⟨g, nd.l2s, nd.base⟩)

/-- `pool_alloc`.  `nb` is the buffer address the system allocator hands to
a successor created during this call.  When the source creates a fresh
successor it tail-recurses into it; a fresh group is never full, so that
call is exactly the find/mark branch, `alloc_here`. -/
def pool_alloc (sw nb : Nat) : List Node → Option (Nat × List Node)
  | [] => none
  | [nd] =>
    if ssg_is_full sw nd.slots then
      (pool_create sw nb ((1 <<< nd.l2s) % 2 ^ 32)).bind fun fresh =>
        (alloc_here sw fresh).map fun p => (p.1, [nd, p.2])
    else
      (alloc_here sw nd).map fun p => (p.1, [p.2])
  | nd :: r :: rs =>
    if ssg_is_full sw nd.slots then
      (pool_alloc sw nb (r :: rs)).map fun p => (p.1, nd :: p.2)
    else
      (alloc_here sw nd).map fun p => (p.1, p.2 :: r :: rs)

/-- `pool_free`: null pointer is a no-op; a pointer inside this node's
buffer range is translated to a slot, checked against a double free
(`assert(ssg_test(...))`, `none` on failure) and unmarked; otherwise the
successor is tried, and a chain that never owns the pointer is `assert(0)`,
again `none`. -/
def pool_free (sw : Nat) : List Node → Nat → Option (List Node)
  | [], _ => none
  | [nd], p =>
    if p == 0 then some [nd]
    else if nd.base ≤ p ∧ p < nd.base + (SSG_SIZE sw <<< nd.l2s) then
      (ssg_test sw nd.slots ((p - nd.base) >>> nd.l2s)).bind fun marked =>
        if marked then
          (ssg_unmark sw nd.slots ((p - nd.base) >>> nd.l2s)).map fun g =>
            [(⟨g, nd.l2s, nd.base⟩ : Node)]
        else none
    else none
  | nd :: r :: rs, p =>
    if p == 0 then some (nd :: r :: rs)
    else if nd.base ≤ p ∧ p < nd.base + (SSG_SIZE sw <<< nd.l2s) then
      (ssg_test sw nd.slots ((p - nd.base) >>> nd.l2s)).bind fun marked =>
        if marked then
          (ssg_unmark sw nd.slots ((p - nd.base) >>> nd.l2s)).map fun g =>
            ⟨g, nd.l2s, nd.base⟩ :: r :: rs
        else none
    else (pool_free sw (r :: rs) p).map fun c => nd :: c

/-- Every node of a chain carries the object-size exponent `L`. -/
def uniformL2s (L : Nat) (c : List Node) : Bool := c.all fun nd => nd.l2s == L

/-- Number of free slots of a group: group slot `i` lives at bit
`i % SS_SIZE` of word `i / SS_SIZE` (the layout `ssg_find` scans), and a
slot is free when its bit is 1. -/
def ssgFreeCount (sw : Nat) (g : List Nat) : Nat :=
  ((List.range (SSG_SIZE sw)).filter fun i =>
    (g.getD (i / SS_SIZE sw) 0).testBit (i % SS_SIZE sw)).length

/-- Written from the spec: `r` is the smallest power of two that is at
least `n`. -/
def isLeastPow2Ge (n r : Nat) : Prop :=
  (∃ k, r = 2 ^ k) ∧ n ≤ r ∧ ∀ m k, m = 2 ^ k → n ≤ m → r ≤ m

/-! Helper lemmas about the bit-smearing in `npot`. -/

theorem smearStep_testBit (k x i : Nat) :
    (smearStep k x).testBit i = (x.testBit (k + i) || x.testBit i) := by
  simp [smearStep]

theorem smearStep_spread {x y k : Nat}
    (h : ∀ i, y.testBit i = true ↔ ∃ o, o < k ∧ x.testBit (i + o) = true) (i : Nat) :
    (smearStep k y).testBit i = true ↔ ∃ o, o < 2 * k ∧ x.testBit (i + o) = true := by
  rw [smearStep_testBit, Bool.or_eq_true]
  constructor
  · rintro (hk | h0)
    · obtain ⟨o, ho, hb⟩ := (h (k + i)).mp hk
      refine ⟨k + o, by omega, ?_⟩
      rwa [show i + (k + o) = k + i + o by omega]
    · obtain ⟨o, ho, hb⟩ := (h i).mp h0
      exact ⟨o, by omega, hb⟩
  · rintro ⟨o, ho, hb⟩
    by_cases hc : o < k
    · exact Or.inr ((h i).mpr ⟨o, hc, hb⟩)
    · refine Or.inl ((h (k + i)).mpr ⟨o - k, by omega, ?_⟩)
      rwa [show k + i + (o - k) = i + o by omega]

theorem smear_testBit (x i : Nat) :
    (smear x).testBit i = true ↔ ∃ o, o < 32 ∧ x.testBit (i + o) = true := by
  have h0 : ∀ j, x.testBit j = true ↔ ∃ o, o < 1 ∧ x.testBit (j + o) = true := by
    intro j
    constructor
    · intro hb
      exact ⟨0, Nat.zero_lt_one, by simpa using hb⟩
    · rintro ⟨o, ho, hb⟩
      have hoz : o = 0 := by omega
      simpa [hoz] using hb
  have h1 := fun j => smearStep_spread h0 j
  have h2 := fun j => smearStep_spread h1 j
  have h4 := fun j => smearStep_spread h2 j
  have h8 := fun j => smearStep_spread h4 j
  have h16 := fun j => smearStep_spread h8 j
  simpa [smear] using h16 i

theorem size_testBit_self {x : Nat} (hx : x ≠ 0) : x.testBit (Nat.size x - 1) = true := by
  have hpos : 0 < Nat.size x := Nat.size_pos.mpr (Nat.pos_of_ne_zero hx)
  have hlow : 2 ^ (Nat.size x - 1) ≤ x := Nat.lt_size.mp (by omega)
  have hhigh : x < 2 ^ Nat.size x := Nat.lt_size_self x
  have hsplit : 2 ^ Nat.size x = 2 ^ (Nat.size x - 1) * 2 := by
    rw [← Nat.pow_succ]
    congr 1
    omega
  have hdiv : x / 2 ^ (Nat.size x - 1) = 1 := by
    apply Nat.div_eq_of_lt_le (by simpa using hlow)
    omega
  rw [Nat.testBit_to_div_mod, hdiv]
  rfl

theorem smear_eq {x : Nat} (hx : x < 2 ^ 32) : smear x = 2 ^ Nat.size x - 1 := by
  apply Nat.eq_of_testBit_eq
  intro i
  rw [Nat.testBit_two_pow_sub_one]
  rcases Nat.lt_or_ge i (Nat.size x) with hi | hi
  · have hx0 : x ≠ 0 := by
      rintro rfl
      simp [Nat.size_zero] at hi
    have hsz : Nat.size x ≤ 32 := Nat.size_le.mpr hx
    have hb : (smear x).testBit i = true := by
      apply (smear_testBit x i).mpr
      refine ⟨Nat.size x - 1 - i, by omega, ?_⟩
      rw [show i + (Nat.size x - 1 - i) = Nat.size x - 1 by omega]
      exact size_testBit_self hx0
    rw [hb]
    exact (decide_eq_true hi).symm
  · have hb : (smear x).testBit i = false := by
      cases hcase : (smear x).testBit i
      · rfl
      · exfalso
        obtain ⟨o, ho, hbit⟩ := (smear_testBit x i).mp hcase
        have hle : Nat.size x ≤ i + o := by omega
        have hfa : x.testBit (i + o) = false :=
          Nat.testBit_lt_two_pow
            (lt_of_lt_of_le (Nat.lt_size_self x) (Nat.pow_le_pow_right (by omega) hle))
        rw [hfa] at hbit
        exact Bool.false_ne_true hbit
    rw [hb]
    exact (decide_eq_false (Nat.not_lt.mpr hi)).symm

theorem dec_mod {n : Nat} (h1 : 1 ≤ n) (h2 : n < 2 ^ 32) :
    (n + (2 ^ 32 - 1)) % 2 ^ 32 = n - 1 := by
  rw [show n + (2 ^ 32 - 1) = (n - 1) + 1 * 2 ^ 32 by omega,
    Nat.add_mul_mod_self_right, Nat.mod_eq_of_lt (by omega)]

theorem npot_eq {n : Nat} (h1 : 1 ≤ n) (h2 : n ≤ 2 ^ 31) :
    npot n = 2 ^ Nat.size (n - 1) := by
  have hlt : n - 1 < 2 ^ 32 := by omega
  have hsz : Nat.size (n - 1) ≤ 31 := Nat.size_le.mpr (by omega)
  unfold npot
  rw [dec_mod h1 (by omega), smear_eq hlt,
    Nat.sub_add_cancel (Nat.pos_pow_of_pos _ (by omega))]
  apply Nat.mod_eq_of_lt
  calc 2 ^ Nat.size (n - 1) ≤ 2 ^ 31 := Nat.pow_le_pow_right (by omega) hsz
    _ < 2 ^ 32 := by norm_num

theorem npot_least {n : Nat} (h1 : 1 ≤ n) (h2 : n ≤ 2 ^ 31) :
    isLeastPow2Ge n (npot n) := by
  rw [npot_eq h1 h2]
  refine ⟨⟨_, rfl⟩, ?_, ?_⟩
  · have := Nat.lt_size_self (n - 1)
    omega
  · rintro m k rfl hm
    apply Nat.pow_le_pow_right (by omega)
    apply Nat.size_le.mpr
    omega

theorem npot_overflow {n : Nat} (h1 : 2 ^ 31 < n) (h2 : n < 2 ^ 32) : npot n = 0 := by
  have hsz : Nat.size (n - 1) = 32 := by
    have hle : Nat.size (n - 1) ≤ 32 := Nat.size_le.mpr (by omega)
    have hlt : 31 < Nat.size (n - 1) := Nat.lt_size.mpr (by omega)
    omega
  unfold npot
  rw [dec_mod (by omega) h2, smear_eq (by omega), hsz]
  norm_num

theorem size_pow_sub_one (k : Nat) : Nat.size (2 ^ k - 1) = k := by
  rcases Nat.eq_zero_or_pos k with rfl | hk
  · simp [Nat.size_zero]
  · have hp := Nat.pos_pow_of_pos k (show 0 < 2 by omega)
    have hle : Nat.size (2 ^ k - 1) ≤ k := Nat.size_le.mpr (by omega)
    have h2 : 2 ^ (k - 1) < 2 ^ k := Nat.pow_lt_pow_right (by omega) (by omega)
    have hlt : k - 1 < Nat.size (2 ^ k - 1) := Nat.lt_size.mpr (by omega)
    omega

theorem tzAux_pow2 : ∀ f k, k < f → tzAux f (2 ^ k) = k := by
  intro f
  induction f with
  | zero => intro k hk; omega
  | succ f ih =>
    intro k hk
    cases k with
    | zero => simp [tzAux]
    | succ k =>
      have hmod : 2 ^ (k + 1) % 2 = 0 := by
        simp [Nat.pow_succ, Nat.mul_mod_left]
      have hdiv : 2 ^ (k + 1) / 2 = 2 ^ k := by
        rw [Nat.pow_succ]
        exact Nat.mul_div_cancel _ (by omega)
      simp [tzAux, hmod, hdiv, ih k (by omega)]

theorem ctz32_pow2 {k : Nat} (hk : k ≤ 31) : ctz32 (2 ^ k) = k := by
  unfold ctz32
  rw [Nat.mod_eq_of_lt (Nat.pow_lt_pow_right (by omega) (by omega))]
  exact tzAux_pow2 32 k (by omega)

/-! Helper lemmas about the slot-set and pool operations. -/

theorem pool_create_eq {sw base n : Nat} (h1 : 1 ≤ n) (h2 : n ≤ 2 ^ 31) :
    pool_create sw base n = some ⟨ssg_empty sw, Nat.size (n - 1), base⟩ := by
  have hne := npot_eq h1 h2
  have hsz : Nat.size (n - 1) ≤ 31 := Nat.size_le.mpr (by omega)
  have hpos : 0 < npot n := by
    rw [hne]
    exact Nat.pos_pow_of_pos _ (by omega)
  unfold pool_create
  rw [if_neg (by simp; omega), if_neg (by simp; omega), hne, ctz32_pow2 hsz]

theorem pool_create_slots {sw base n : Nat} {nd : Node}
    (hc : pool_create sw base n = some nd) : nd.slots = ssg_empty sw := by
  unfold pool_create at hc
  split at hc
  · exact absurd hc (by simp)
  · split at hc
    · exact absurd hc (by simp)
    · simp only [Option.some.injEq] at hc
      rw [← hc]

theorem alloc_here_shape {sw : Nat} {nd : Node} {a : Nat} {nd2 : Node}
    (h : alloc_here sw nd = some (a, nd2)) :
    ∃ pos g, ssg_find sw nd.slots = some pos ∧ ssg_mark sw nd.slots pos = some g ∧
      a = nd.base + (pos <<< nd.l2s) ∧ nd2 = ⟨g, nd.l2s, nd.base⟩ := by
  unfold alloc_here at h
  cases hf : ssg_find sw nd.slots with
  | none =>
    rw [hf] at h
    exact absurd h (by simp)
  | some pos =>
    rw [hf, Option.some_bind'] at h
    cases hm : ssg_mark sw nd.slots pos with
    | none =>
      rw [hm] at h
      exact absurd h (by simp)
    | some g =>
      rw [hm] at h
      simp only [Option.map_some', Option.some.injEq, Prod.mk.injEq] at h
      exact ⟨pos, g, rfl, hm, h.1.symm, h.2.symm⟩

theorem pool_alloc_uniform_aux {sw nb L : Nat} (hL : L ≤ 31) :
    ∀ c a c', uniformL2s L c = true → pool_alloc sw nb c = some (a, c') →
      uniformL2s L c' = true := by
  intro c
  induction c with
  | nil =>
    intro a c' _ h
    simp [pool_alloc] at h
  | cons nd rest ih =>
    intro a c' hu ha
    have hu' := hu
    simp only [uniformL2s, List.all_cons, Bool.and_eq_true, beq_iff_eq] at hu'
    obtain ⟨hl2, hrest⟩ := hu'
    cases rest with
    | nil =>
      simp only [pool_alloc] at ha
      by_cases hfull : ssg_is_full sw nd.slots = true
      · rw [if_pos hfull] at ha
        have hcr : pool_create sw nb ((1 <<< nd.l2s) % 2 ^ 32) =
            some ⟨ssg_empty sw, L, nb⟩ := by
          rw [hl2, Nat.one_shiftLeft,
            Nat.mod_eq_of_lt (Nat.pow_lt_pow_right (by omega) (by omega)),
            pool_create_eq Nat.one_le_two_pow (Nat.pow_le_pow_right (by omega) hL),
            size_pow_sub_one]
        rw [hcr, Option.some_bind'] at ha
        cases hah : alloc_here sw ⟨ssg_empty sw, L, nb⟩ with
        | none =>
          rw [hah] at ha
          exact absurd ha (by simp)
        | some q =>
          rw [hah] at ha
          simp only [Option.map_some', Option.some.injEq, Prod.mk.injEq] at ha
          obtain ⟨pos, g, -, -, -, hnd2⟩ := alloc_here_shape (a := q.1) (by rw [hah])
          rw [← ha.2]
          simp [uniformL2s, hl2, hnd2]
      · rw [if_neg hfull] at ha
        cases hah : alloc_here sw nd with
        | none =>
          rw [hah] at ha
          exact absurd ha (by simp)
        | some q =>
          rw [hah] at ha
          simp only [Option.map_some', Option.some.injEq, Prod.mk.injEq] at ha
          obtain ⟨pos, g, -, -, -, hnd2⟩ := alloc_here_shape (a := q.1) (by rw [hah])
          rw [← ha.2]
          simp [uniformL2s, hl2, hnd2]
    | cons r rs =>
      simp only [pool_alloc] at ha
      by_cases hfull : ssg_is_full sw nd.slots = true
      · rw [if_pos hfull] at ha
        cases hrec : pool_alloc sw nb (r :: rs) with
        | none =>
          rw [hrec] at ha
          exact absurd ha (by simp)
        | some q =>
          rw [hrec] at ha
          simp only [Option.map_some', Option.some.injEq, Prod.mk.injEq] at ha
          have htail := ih q.1 q.2 (by simpa [uniformL2s] using hrest) (by rw [hrec])
          rw [← ha.2]
          simp only [uniformL2s, List.all_cons, Bool.and_eq_true, beq_iff_eq]
          exact ⟨hl2, by simpa [uniformL2s] using htail⟩
      · rw [if_neg hfull] at ha
        cases hah : alloc_here sw nd with
        | none =>
          rw [hah] at ha
          exact absurd ha (by simp)
        | some q =>
          rw [hah] at ha
          simp only [Option.map_some', Option.some.injEq, Prod.mk.injEq] at ha
          obtain ⟨pos, g, -, -, -, hnd2⟩ := alloc_here_shape (a := q.1) (by rw [hah])
          rw [← ha.2]
          simp only [uniformL2s, List.all_cons, Bool.and_eq_true, beq_iff_eq]
          refine ⟨by simp [hnd2, hl2], ?_⟩
          simpa [uniformL2s] using hrest

theorem pool_free_uniform_aux {sw L : Nat} :
    ∀ c p c', uniformL2s L c = true → pool_free sw c p = some c' →
      uniformL2s L c' = true := by
  intro c
  induction c with
  | nil =>
    intro p c' _ h
    simp [pool_free] at h
  | cons nd rest ih =>
    intro p c' hu hf
    have hu' := hu
    simp only [uniformL2s, List.all_cons, Bool.and_eq_true, beq_iff_eq] at hu'
    obtain ⟨hl2, hrest⟩ := hu'
    cases rest with
    | nil =>
      simp only [pool_free] at hf
      by_cases hz : (p == 0) = true
      · rw [if_pos hz] at hf
        simp only [Option.some.injEq] at hf
        rw [← hf]
        exact hu
      · rw [if_neg hz] at hf
        by_cases hr : nd.base ≤ p ∧ p < nd.base + (SSG_SIZE sw <<< nd.l2s)
        · rw [if_pos hr] at hf
          cases ht : ssg_test sw nd.slots ((p - nd.base) >>> nd.l2s) with
          | none =>
            rw [ht] at hf
            exact absurd hf (by simp)
          | some marked =>
            rw [ht, Option.some_bind'] at hf
            cases marked with
            | false =>
              rw [if_neg (by simp)] at hf
              exact absurd hf (by simp)
            | true =>
              rw [if_pos rfl] at hf
              cases hum : ssg_unmark sw nd.slots ((p - nd.base) >>> nd.l2s) with
              | none =>
                rw [hum] at hf
                exact absurd hf (by simp)
              | some g =>
                rw [hum] at hf
                simp only [Option.map_some', Option.some.injEq] at hf
                rw [← hf]
                simp [uniformL2s, hl2]
        · rw [if_neg hr] at hf
          exact absurd hf (by simp)
    | cons r rs =>
      simp only [pool_free] at hf
      by_cases hz : (p == 0) = true
      · rw [if_pos hz] at hf
        simp only [Option.some.injEq] at hf
        rw [← hf]
        exact hu
      · rw [if_neg hz] at hf
        by_cases hr : nd.base ≤ p ∧ p < nd.base + (SSG_SIZE sw <<< nd.l2s)
        · rw [if_pos hr] at hf
          cases ht : ssg_test sw nd.slots ((p - nd.base) >>> nd.l2s) with
          | none =>
            rw [ht] at hf
            exact absurd hf (by simp)
          | some marked =>
            rw [ht, Option.some_bind'] at hf
            cases marked with
            | false =>
              rw [if_neg (by simp)] at hf
              exact absurd hf (by simp)
            | true =>
              rw [if_pos rfl] at hf
              cases hum : ssg_unmark sw nd.slots ((p - nd.base) >>> nd.l2s) with
              | none =>
                rw [hum] at hf
                exact absurd hf (by simp)
              | some g =>
                rw [hum] at hf
                simp only [Option.map_some', Option.some.injEq] at hf
                rw [← hf]
                simp only [uniformL2s, List.all_cons, Bool.and_eq_true, beq_iff_eq]
                refine ⟨hl2, ?_⟩
                simpa [uniformL2s] using hrest
        · rw [if_neg hr] at hf
          cases hrec : pool_free sw (r :: rs) p with
          | none =>
            rw [hrec] at hf
            exact absurd hf (by simp)
          | some c2 =>
            rw [hrec] at hf
            simp only [Option.map_some', Option.some.injEq] at hf
            have htail := ih p c2 (by simpa [uniformL2s] using hrest) hrec
            rw [← hf]
            simp only [uniformL2s, List.all_cons, Bool.and_eq_true, beq_iff_eq]
            exact ⟨hl2, by simpa [uniformL2s] using htail⟩

theorem pool_alloc_aligned_aux {sw nb L : Nat} (hL : L ≤ 31) (hnb : nb % 2 ^ L = 0) :
    ∀ c a c', uniformL2s L c = true →
      (c.all fun nd => nd.base % 2 ^ L == 0) = true →
      pool_alloc sw nb c = some (a, c') → a % 2 ^ L = 0 := by
  intro c
  induction c with
  | nil =>
    intro a c' _ _ h
    simp [pool_alloc] at h
  | cons nd rest ih =>
    intro a c' hu hb ha
    simp only [uniformL2s, List.all_cons, Bool.and_eq_true, beq_iff_eq] at hu hb
    obtain ⟨hl2, hurest⟩ := hu
    obtain ⟨hbase, hbrest⟩ := hb
    cases rest with
    | nil =>
      simp only [pool_alloc] at ha
      by_cases hfull : ssg_is_full sw nd.slots = true
      · rw [if_pos hfull] at ha
        have hcr : pool_create sw nb ((1 <<< nd.l2s) % 2 ^ 32) =
            some ⟨ssg_empty sw, L, nb⟩ := by
          rw [hl2, Nat.one_shiftLeft,
            Nat.mod_eq_of_lt (Nat.pow_lt_pow_right (by omega) (by omega)),
            pool_create_eq Nat.one_le_two_pow (Nat.pow_le_pow_right (by omega) hL),
            size_pow_sub_one]
        rw [hcr, Option.some_bind'] at ha
        cases hah : alloc_here sw ⟨ssg_empty sw, L, nb⟩ with
        | none =>
          rw [hah] at ha
          exact absurd ha (by simp)
        | some q =>
          rw [hah] at ha
          simp only [Option.map_some', Option.some.injEq, Prod.mk.injEq] at ha
          obtain ⟨pos, g, -, -, haddr, -⟩ := alloc_here_shape (a := q.1) (by rw [hah])
          rw [← ha.1, haddr, Nat.shiftLeft_eq]
          show (nb + pos * 2 ^ L) % 2 ^ L = 0
          rw [Nat.add_mul_mod_self_right]
          exact hnb
      · rw [if_neg hfull] at ha
        cases hah : alloc_here sw nd with
        | none =>
          rw [hah] at ha
          exact absurd ha (by simp)
        | some q =>
          rw [hah] at ha
          simp only [Option.map_some', Option.some.injEq, Prod.mk.injEq] at ha
          obtain ⟨pos, g, -, -, haddr, -⟩ := alloc_here_shape (a := q.1) (by rw [hah])
          rw [← ha.1, haddr, hl2, Nat.shiftLeft_eq, Nat.add_mul_mod_self_right]
          exact hbase
    | cons r rs =>
      simp only [pool_alloc] at ha
      by_cases hfull : ssg_is_full sw nd.slots = true
      · rw [if_pos hfull] at ha
        cases hrec : pool_alloc sw nb (r :: rs) with
        | none =>
          rw [hrec] at ha
          exact absurd ha (by simp)
        | some q =>
          rw [hrec] at ha
          simp only [Option.map_some', Option.some.injEq, Prod.mk.injEq] at ha
          have := ih q.1 q.2 (by simpa [uniformL2s] using hurest)
            (by simpa using hbrest) (by rw [hrec])
          rw [← ha.1]
          exact this
      · rw [if_neg hfull] at ha
        cases hah : alloc_here sw nd with
        | none =>
          rw [hah] at ha
          exact absurd ha (by simp)
        | some q =>
          rw [hah] at ha
          simp only [Option.map_some', Option.some.injEq, Prod.mk.injEq] at ha
          obtain ⟨pos, g, -, -, haddr, -⟩ := alloc_here_shape (a := q.1) (by rw [hah])
          rw [← ha.1, haddr, hl2, Nat.shiftLeft_eq, Nat.add_mul_mod_self_right]
          exact hbase

theorem getD_replicate {α : Type} {n : Nat} {a d : α} {j : Nat} (h : j < n) :
    (List.replicate n a).getD j d = a := by
  simp [List.getD_eq_getElem?_getD, List.getElem?_replicate, h]

theorem SSG_SIZE_eq {sw : Nat} (h1 : 0 < sw) (h2 : sw ∣ 8) : SSG_SIZE sw = 64 := by
  unfold SSG_SIZE SSG_COUNT SS_SIZE
  rw [← Nat.mul_assoc, Nat.div_mul_cancel h2]

theorem freeCount_empty {sw : Nat} (h1 : 0 < sw) (h2 : sw ∣ 8) :
    ssgFreeCount sw (ssg_empty sw) = 64 := by
  have hall : ∀ i ∈ List.range (SSG_SIZE sw),
      (((ssg_empty sw).getD (i / SS_SIZE sw) 0).testBit (i % SS_SIZE sw)) = true := by
    intro i hi
    rw [List.mem_range] at hi
    have hSS : 0 < SS_SIZE sw := by
      unfold SS_SIZE
      omega
    have hdiv : i / SS_SIZE sw < SSG_COUNT sw := by
      apply (Nat.div_lt_iff_lt_mul hSS).mpr
      unfold SSG_SIZE at hi
      exact hi
    unfold ssg_empty
    rw [getD_replicate hdiv]
    unfold SS_EMPTY
    rw [Nat.testBit_two_pow_sub_one]
    exact decide_eq_true (Nat.mod_lt i hSS)
  unfold ssgFreeCount
  rw [List.filter_eq_self.mpr hall, List.length_range]
  exact SSG_SIZE_eq h1 h2

/-! Main theorems, one per audited claim. -/

/-- C1: the claim says `ssg_test`, `ssg_mark` and `ssg_unmark` select the
constituent Slot Set by `idx / SS_SIZE` and operate at local index
`idx % SS_SIZE`, so that bit `idx` of the 64-bit group is touched.  The code
divides by `SSG_COUNT` instead: with 4-byte words (`SS_SIZE = 32`,
`SSG_COUNT = 2`) and `idx = 2` it addresses word 1 at bit 0 rather than
word 0 at bit 2, so `ssg_test` answers `true` (occupied) on a group whose
slot 2 is free. -/
theorem ssg_bucket_routing_bug :
    _ssg_bucket 4 2 = 1 ∧ 2 / SS_SIZE 4 = 0 ∧
    _ssg_subindex 4 2 = 0 ∧ 2 % SS_SIZE 4 = 2 ∧
    ssg_test 4 [2 ^ 32 - 1, 0] 2 = some true ∧
    ss_test (2 ^ 32 - 1) (2 % SS_SIZE 4) = false := by
  decide

/-- C2 counterexample: on the all-free word `SS_EMPTY` the claim demands
`test` answer `true` at slot 0, but `ss_test` masks the bit and compares
with 0, answering `false` exactly on free slots. -/
theorem ss_test_free_counterexample :
    Nat.testBit (SS_EMPTY 4) 0 = true ∧ ss_test (SS_EMPTY 4) 0 = false := by
  decide

/-- C2 (amended): `ss_test s idx` is true iff slot `idx` is occupied, that
is iff bit `idx` of the word is 0 (free slots carry bit value 1). -/
theorem ss_test_true_iff_occupied (x idx : Nat) :
    ss_test x idx = true ↔ x.testBit idx = false := by
  unfold ss_test
  rw [Nat.one_shiftLeft, Nat.and_two_pow]
  cases h : x.testBit idx
  · simp
  · simp

/-- C3: on a chain owning `ptr` the claim says `pool_free` computes
`index = (ptr - base) >> l2s`, asserts that slot occupied, and unmarks it.
With 4-byte words, base 100, `l2s = 3` and slot 2 occupied (bit 2 of word 0
is 0) the in-range free of address 116 computes slot 2 but the misrouted
`ssg_test` reads word 1 bit 0 and the assertion fires — the model returns
`none` — although the slot is occupied and the free is legitimate. -/
theorem pool_free_wrong_bit_bug :
    Nat.testBit (2 ^ 32 - 5) 2 = false ∧
    (100 ≤ 116 ∧ 116 < 100 + (SSG_SIZE 4 <<< 3)) ∧
    pool_free 4 [⟨[2 ^ 32 - 5, 2 ^ 32 - 1], 3, 100⟩] 116 = none := by
  decide

/-- C4: a full node without successor creates one with the same rounded
object size `1 << l2s`, whose `npot` is itself and whose trailing-zero count
is again `l2s`; hence `pool_alloc` and `pool_free` both preserve the
property that every node of the chain carries the same `l2s`. -/
theorem pool_ops_preserve_l2s (sw nb L : Nat) (c : List Node)
    (hL : L ≤ 31) (hu : uniformL2s L c = true) :
    (∀ a c', pool_alloc sw nb c = some (a, c') → uniformL2s L c' = true) ∧
    (∀ p c', pool_free sw c p = some c' → uniformL2s L c' = true) :=
  ⟨fun a c' h => pool_alloc_uniform_aux hL c a c' hu h,
   fun p c' h => pool_free_uniform_aux c p c' hu h⟩

/-- C4 witness: allocating from a full one-node chain with `l2s = 3` grows
it by a successor that again has `l2s = 3`. -/
theorem pool_ops_preserve_l2s_witness :
    uniformL2s 3 [⟨[0, 0], 3, 100⟩, ⟨[2 ^ 32 - 2, 2 ^ 32 - 1], 3, 200⟩] = true :=
  (pool_ops_preserve_l2s 4 200 3 [⟨[0, 0], 3, 100⟩] (by decide) (by decide)).1
    200 [⟨[0, 0], 3, 100⟩, ⟨[2 ^ 32 - 2, 2 ^ 32 - 1], 3, 200⟩] (by decide)

/-- C5 counterexample: the claim quantifies over every positive `n`, but at
`n = 2^31 + 1` the 32-bit smearing wraps: `npot` returns 0, which is not a
power of two at least `n`, and `pool_create` has no defined result. -/
theorem npot_above_2pow31_counterexample :
    npot (2 ^ 31 + 1) = 0 ∧ pool_create 4 0 (2 ^ 31 + 1) = none ∧
    ¬ (2 ^ 31 + 1 ≤ npot (2 ^ 31 + 1)) := by
  decide

/-- C5 (amended): for `1 ≤ n ≤ 2^31`, `pool_create` fixes the per-slot
stride `2^l2s` to `npot n`, the smallest power of two at least `n`; in
particular `npot` maps 24 to 32, 32 to 32 and 33 to 64. -/
theorem pool_create_stride_least_pow2 (sw base n : Nat) (nd : Node)
    (h1 : 1 ≤ n) (h2 : n ≤ 2 ^ 31) (hc : pool_create sw base n = some nd) :
    2 ^ nd.l2s = npot n ∧ isLeastPow2Ge n (2 ^ nd.l2s) ∧
    npot 24 = 32 ∧ npot 32 = 32 ∧ npot 33 = 64 := by
  have he : pool_create sw base n = some ⟨ssg_empty sw, Nat.size (n - 1), base⟩ :=
    pool_create_eq h1 h2
  rw [hc, Option.some.injEq] at he
  have hl : nd.l2s = Nat.size (n - 1) := by rw [he]
  have hnp : npot n = 2 ^ Nat.size (n - 1) := npot_eq h1 h2
  refine ⟨by rw [hl, hnp], ?_, by decide, by decide, by decide⟩
  rw [hl, ← hnp]
  exact npot_least h1 h2

/-- C5 witness: `pool_create` at requested size 24 yields `l2s = 5`, the
stride 32 being the least power of two at least 24. -/
theorem pool_create_stride_least_pow2_witness :
    2 ^ (Node.mk (ssg_empty 4) 5 0).l2s = npot 24 ∧
    isLeastPow2Ge 24 (2 ^ (Node.mk (ssg_empty 4) 5 0).l2s) ∧
    npot 24 = 32 ∧ npot 32 = 32 ∧ npot 33 = 64 :=
  pool_create_stride_least_pow2 4 0 24 ⟨ssg_empty 4, 5, 0⟩ (by decide) (by decide)
    (by decide)

/-- C6: the claim demands ascending lowest-free-index allocation, so four
allocations from a fresh pool must return the addresses of slots 0, 1, 2, 3.
With 4-byte words the misrouted `ssg_mark` of slot 2 clears word 1 bit 0
instead of word 0 bit 2, so the third and the fourth allocation both return
the slot-2 address 116 — a live address is handed out twice. -/
theorem pool_alloc_duplicate_address_bug :
    (do
      let p1 ← pool_alloc 4 0 [⟨ssg_empty 4, 3, 100⟩]
      let p2 ← pool_alloc 4 0 p1.2
      let p3 ← pool_alloc 4 0 p2.2
      let p4 ← pool_alloc 4 0 p3.2
      pure (p1.1, p2.1, p3.1, p4.1) : Option (Nat × Nat × Nat × Nat)) =
      some (100, 108, 116, 116) := by
  rfl

/-- C7: the claim says `find` returns the lowest free slot index of every
non-full group.  `ss_find` passes the `unsigned long` word to
`__builtin_ctz`, which takes a 32-bit `unsigned`: with 8-byte words the
group `[2^32]` (slots 0..31 occupied, slot 32 free) is not full, yet the
truncated argument is 0 and the builtin call is undefined, so `ssg_find`
has no defined result instead of returning 32. -/
theorem ssg_find_ctz_truncation_bug :
    ssg_is_full 8 [2 ^ 32] = false ∧ ssg_find 8 [2 ^ 32] = none := by
  decide

/-- C8: for any word size dividing 8 bytes the group spans exactly
`SSG_COUNT * SS_SIZE = 64` bits, a freshly created pool node has all 64
slots free, and its successor link is null (a one-node chain). -/
theorem pool_create_fresh_state (sw : Nat) (h1 : 0 < sw) (h2 : sw ∣ 8)
    (base n : Nat) (nd : Node) (hc : pool_create sw base n = some nd) :
    SSG_SIZE sw = 64 ∧ ssgFreeCount sw nd.slots = 64 ∧
    pool_create_chain sw base n = some [nd] := by
  refine ⟨SSG_SIZE_eq h1 h2, ?_, ?_⟩
  · rw [pool_create_slots hc]
    exact freeCount_empty h1 h2
  · unfold pool_create_chain
    rw [hc, Option.map_some']

/-- C8 witness: on 8-byte words a fresh pool of object size 1 is the chain
of the single all-free node. -/
theorem pool_create_fresh_state_witness :
    SSG_SIZE 8 = 64 ∧ ssgFreeCount 8 (Node.mk [2 ^ 64 - 1] 0 0).slots = 64 ∧
    pool_create_chain 8 0 1 = some [⟨[2 ^ 64 - 1], 0, 0⟩] :=
  pool_create_fresh_state 8 (by decide) (by decide) 0 1 ⟨[2 ^ 64 - 1], 0, 0⟩
    (by decide)

/-- C9 counterexample: allocation returns `base + index * stride`, which is
only stride-aligned if the buffer base is; a pool whose buffer starts at
address 24 with stride 32 returns the unaligned address 24. -/
theorem pool_alloc_unaligned_counterexample :
    pool_alloc 4 0 [⟨ssg_empty 4, 5, 24⟩] =
      some (24, [⟨[2 ^ 32 - 2, 2 ^ 32 - 1], 5, 24⟩]) ∧
    ¬ (24 % 2 ^ 5 = 0) := by
  decide

/-- C9 (amended): every address `pool_alloc` returns is the serving node's
buffer base plus a multiple of the stride `2^l2s`; when every buffer base of
the chain — including the one a fresh successor would get — is itself
stride-aligned, the returned address is stride-aligned. -/
theorem pool_alloc_aligned_of_aligned_bases (sw nb L : Nat) (c : List Node)
    (a : Nat) (c' : List Node) (hL : L ≤ 31) (hnb : nb % 2 ^ L = 0)
    (hu : uniformL2s L c = true)
    (hb : (c.all fun nd => nd.base % 2 ^ L == 0) = true)
    (ha : pool_alloc sw nb c = some (a, c')) : a % 2 ^ L = 0 :=
  pool_alloc_aligned_aux hL hnb c a c' hu hb ha

/-- C9 witness: with an aligned base 32 and stride 32 the first allocation
returns the aligned address 32. -/
theorem pool_alloc_aligned_of_aligned_bases_witness : (32 : Nat) % 2 ^ 5 = 0 :=
  pool_alloc_aligned_of_aligned_bases 4 0 5 [⟨ssg_empty 4, 5, 32⟩] 32
    [⟨[2 ^ 32 - 2, 2 ^ 32 - 1], 5, 32⟩] (by decide) (by decide) (by decide)
    (by decide) (by decide)

/-- C10: `npot` computes in 32-bit wrap-around arithmetic: on `1 ≤ n ≤ 2^31`
it returns the smallest power of two at least `n`, and on every 32-bit input
strictly above `2^31` it wraps to 0, so `pool_create` (which would feed that
0 to `__builtin_ctz`) has `n ≤ 2^31` as its effective precondition. -/
theorem npot_32bit_range_spec :
    (∀ n, 1 ≤ n → n ≤ 2 ^ 31 → isLeastPow2Ge n (npot n)) ∧
    (∀ n, 2 ^ 31 < n → n < 2 ^ 32 → npot n = 0) ∧
    (∀ sw base n, 2 ^ 31 < n → n < 2 ^ 32 → pool_create sw base n = none) := by
  refine ⟨fun n h1 h2 => npot_least h1 h2, fun n h1 h2 => npot_overflow h1 h2, ?_⟩
  intro sw base n h1 h2
  unfold pool_create
  rw [if_neg (by simp; omega), if_pos (by simp [npot_overflow h1 h2])]

/-- C10 witness: 7 rounds to the least power of two 8, while `2^31 + 5`
wraps to 0 and pool creation has no defined result. -/
theorem npot_32bit_range_spec_witness :
    isLeastPow2Ge 7 (npot 7) ∧ npot (2 ^ 31 + 5) = 0 ∧
    pool_create 8 0 (2 ^ 31 + 5) = none :=
  ⟨npot_32bit_range_spec.1 7 (by decide) (by decide),
   npot_32bit_range_spec.2.1 (2 ^ 31 + 5) (by decide) (by decide),
   npot_32bit_range_spec.2.2 8 0 (2 ^ 31 + 5) (by decide) (by decide)⟩
